import Mathlib

/-!
Formal model of the citation-chain derivation pipeline of the
patentsview_in_neo4j repository.

The development embeds, as executable Lean definitions, the parts of the
source that the verified properties depend on:

* the representative resolver of src/neo4j_ai_citation_chain.py
  (select_the_longest_history, lines 92-109);
* the Cypher queries issued by src/handler/neo4j_handler.py
  (query_patents_by_time_window, query_citation_chain_of_assignee,
  query_citation_chain_of_inventor, query_pid2aid, query_pid2iid),
  evaluated over an explicit finite graph model;
* the numpy array_split chunking used by all batched queries;
* the batched, checkpointed chain builder of src/gen_citation_chain.py
  (retrieve_target_patents, retrieve_assignee_citation_chains);
* the date-to-epoch conversion to_epoch of src/handler/neo4j_handler.py,
  including the name binding of the bare identifier datetime in that
  module (the module is imported with a plain import statement, so the
  bare name denotes the module object, which is not callable).

Python dictionaries keyed by entity-id strings are modelled as
association lists or as functions into Option; Python exceptions
(KeyError, IndexError, TypeError) are modelled with Except.
-/

/-- Calendar date (year, month, day) as stored on patent nodes in the
graph; neo4j date values carry no time component. -/
structure Date where
  year : Nat
  month : Nat
  day : Nat
deriving DecidableEq, Repr

/-- Lexicographic order on calendar dates, the order used by the
ORDER BY cites.date ASC clauses of the chain queries. -/
def Date.le (a b : Date) : Prop :=
  a.year < b.year ∨
    (a.year = b.year ∧ (a.month < b.month ∨ (a.month = b.month ∧ a.day ≤ b.day)))

instance : DecidableRel Date.le := fun a b => by
  unfold Date.le
  exact inferInstance

theorem Date.le_total (a b : Date) : Date.le a b ∨ Date.le b a := by
  unfold Date.le
  omega

theorem Date.le_trans (a b c : Date) (h1 : Date.le a b) (h2 : Date.le b c) :
    Date.le a c := by
  unfold Date.le at h1 h2 ⊢
  omega

/-! ### Representative resolver (src/neo4j_ai_citation_chain.py, lines 92-109)

For each target patent, select_the_longest_history looks up the chain
length of every associated assignee id (resp. inventor id), sorts the
(id, length) pairs by length with Python's stable sorted(..., reverse=True),
and keeps the first element of the sorted list. Looking up an id that is
absent from the length dictionary raises KeyError; taking tmp[0] of an
empty list raises IndexError. -/

/-- Failure modes of the per-patent selection body: a KeyError on the
chain-length dictionary (the spec's MissingLengthEntry) or an IndexError
on the first element of an empty sorted list. -/
inductive ResolveError where
  | missingLengthEntry : String → ResolveError
  | emptyCandidates : ResolveError
deriving DecidableEq, Repr

/-- Embeds the list comprehension
[(aid, assignee_chain_len[aid]) for aid in aids] of line 98: each id is
paired with its dictionary entry, and the first id with no entry raises
KeyError. -/
def lookup_lengths (idx : String → Option Nat) : List String →
    Except ResolveError (List (String × Nat))
  | [] => .ok []
  | a :: rest =>
    match idx a with
    | none => .error (.missingLengthEntry a)
    | some n => (lookup_lengths idx rest).map (fun ps => (a, n) :: ps)

/-- Comparison realized by sorted(..., key=lambda x: x[1], reverse=True):
x may stay before y exactly when y's length does not exceed x's.
Python's sort is stable, so equal lengths keep their original order;
a stable sort is uniquely determined by this relation, and
List.insertionSort below computes it. -/
def desc_by_len : (String × Nat) → (String × Nat) → Prop :=
  fun x y => y.2 ≤ x.2

instance : DecidableRel desc_by_len := fun x y => Nat.decLe y.2 x.2

/-- Embeds the per-patent body of select_the_longest_history
(src/neo4j_ai_citation_chain.py lines 98-100 for assignees, 103-105 for
inventors): build the (id, length) pairs, stable-sort them by length
descending, and return the id of the first element. -/
def select_the_longest_history_for (idx : String → Option Nat)
    (aids : List String) : Except ResolveError String :=
  match lookup_lengths idx aids with
  | .error e => .error e
  | .ok pairs =>
    match (List.insertionSort desc_by_len pairs).head? with
    | some p => .ok p.1
    | none => .error .emptyCandidates

/-- Specification-side selector: of a list of (id, length) pairs, the
pair that would end first after a stable descending sort by length; a
later pair replaces the current best only when its length is strictly
larger, so the first occurrence of the maximum wins. -/
def first_max_pair : List (String × Nat) → Option (String × Nat)
  | [] => none
  | x :: xs =>
    match first_max_pair xs with
    | none => some x
    | some m => if x.2 < m.2 then some m else some x

/-- Specification-side selector on a list of ids with a length
valuation: the first id attaining the maximum length. -/
def first_max_el (v : String → Nat) : List String → Option String
  | [] => none
  | a :: rest =>
    match first_max_el v rest with
    | none => some a
    | some m => if v a < v m then some m else some a

theorem head?_orderedInsert (x : String × Nat) (l : List (String × Nat)) :
    (List.orderedInsert desc_by_len x l).head? =
      some (match l.head? with
            | none => x
            | some y => if y.2 ≤ x.2 then x else y) := by
  cases l with
  | nil => rfl
  | cons y ys =>
    by_cases h : desc_by_len x y
    · have h' : y.2 ≤ x.2 := h
      simp [List.orderedInsert, if_pos h, h']
    · have h' : ¬ y.2 ≤ x.2 := h
      simp [List.orderedInsert, if_neg h, h']

theorem head?_insertionSort_desc (l : List (String × Nat)) :
    (List.insertionSort desc_by_len l).head? = first_max_pair l := by
  induction l with
  | nil => rfl
  | cons x xs ih =>
    show (List.orderedInsert desc_by_len x (List.insertionSort desc_by_len xs)).head? = _
    rw [head?_orderedInsert, show first_max_pair (x :: xs) =
      (match first_max_pair xs with
       | none => some x
       | some m => if x.2 < m.2 then some m else some x) from rfl]
    rw [← ih]
    cases hh : (List.insertionSort desc_by_len xs).head? with
    | none => rfl
    | some m =>
      by_cases h : x.2 < m.2
      · have h' : ¬ m.2 ≤ x.2 := by omega
        simp [if_pos h, if_neg h']
      · have h' : m.2 ≤ x.2 := by omega
        simp [if_neg h, if_pos h']

theorem first_max_pair_map (v : String → Nat) (l : List String) :
    first_max_pair (l.map (fun a => (a, v a))) =
      (first_max_el v l).map (fun b => (b, v b)) := by
  induction l with
  | nil => rfl
  | cons a t ih =>
    simp only [List.map_cons, first_max_pair, first_max_el, ih]
    cases ht : first_max_el v t with
    | none => rfl
    | some m =>
      by_cases h : v a < v m <;> simp [h]

theorem first_max_el_cons_isSome (v : String → Nat) (a : String)
    (t : List String) : (first_max_el v (a :: t)).isSome := by
  show (match first_max_el v t with
        | none => some a
        | some m => if v a < v m then some m else some a).isSome
  cases first_max_el v t with
  | none => rfl
  | some m =>
    by_cases h : v a < v m
    · simp [if_pos h]
    · simp [if_neg h]

theorem find?_and_of_find? (p q : String → Bool) (l : List String)
    (m : String) (h : l.find? p = some m) (hq : q m = true) :
    l.find? (fun x => q x && p x) = some m := by
  induction l with
  | nil => simp at h
  | cons a t ih =>
    by_cases hpa : p a = true
    · rw [List.find?_cons_of_pos t hpa] at h
      have hm : a = m := by injection h
      subst hm
      exact List.find?_cons_of_pos t (by simp [hpa, hq])
    · rw [List.find?_cons_of_neg t hpa] at h
      rw [List.find?_cons_of_neg t (by simp [hpa])]
      exact ih h

theorem first_max_el_eq_find? (v : String → Nat) (l : List String) :
    first_max_el v l = l.find? (fun a => l.all (fun c => decide (v c ≤ v a))) := by
  induction l with
  | nil => rfl
  | cons a t ih =>
    cases ht : first_max_el v t with
    | none =>
      cases t with
      | nil => simp [first_max_el]
      | cons b t' =>
        have := first_max_el_cons_isSome v b t'
        rw [ht] at this
        simp at this
    | some m =>
      rw [ht] at ih
      have hmax : ∀ c ∈ t, v c ≤ v m := by
        intro c hc
        have hpm := List.find?_some ih.symm
        have := List.all_eq_true.mp hpm c hc
        simpa using this
      have hmem : m ∈ t := List.mem_of_find?_eq_some ih.symm
      have hunf : first_max_el v (a :: t) = if v a < v m then some m else some a := by
        simp [first_max_el, ht]
      rw [hunf]
      by_cases hav : v a < v m
      · rw [if_pos hav]
        have hfa : ¬ ((a :: t).all (fun c => decide (v c ≤ v a)) = true) := by
          intro hall
          have := List.all_eq_true.mp hall m (by simp [hmem])
          simp at this
          omega
        rw [List.find?_cons_of_neg t (by simpa using hfa)]
        have hstep : t.find? (fun x => decide (v a ≤ v x) &&
            t.all (fun c => decide (v c ≤ v x))) = some m :=
          find?_and_of_find? _ _ t m ih.symm (by simp; omega)
        exact hstep.symm ▸ rfl
      · rw [if_neg hav]
        have hfa : (a :: t).all (fun c => decide (v c ≤ v a)) = true := by
          apply List.all_eq_true.mpr
          intro c hc
          rcases List.mem_cons.mp hc with h | h
          · subst h; simp
          · have := hmax c h
            simp
            omega
        rw [List.find?_cons_of_pos t hfa]

theorem lookup_lengths_ok (idx : String → Option Nat) (aids : List String)
    (hcov : ∀ a ∈ aids, (idx a).isSome) :
    lookup_lengths idx aids = .ok (aids.map (fun a => (a, (idx a).getD 0))) := by
  induction aids with
  | nil => rfl
  | cons a t ih =>
    have ha : (idx a).isSome := hcov a (by simp)
    obtain ⟨n, hn⟩ := Option.isSome_iff_exists.mp ha
    have ht : ∀ b ∈ t, (idx b).isSome := fun b hb => hcov b (by simp [hb])
    show (match idx a with
          | none => Except.error (ResolveError.missingLengthEntry a)
          | some n => (lookup_lengths idx t).map (fun ps => (a, n) :: ps)) = _
    rw [hn, ih ht]
    simp [Except.map, hn]

theorem lookup_lengths_missing (idx : String → Option Nat)
    (aids : List String) (h : ∃ a ∈ aids, idx a = none) :
    ∃ a', a' ∈ aids ∧ idx a' = none ∧
      lookup_lengths idx aids = .error (.missingLengthEntry a') := by
  induction aids with
  | nil => simp at h
  | cons a t ih =>
    cases ha : idx a with
    | none =>
      refine ⟨a, by simp, ha, ?_⟩
      show (match idx a with
            | none => Except.error (ResolveError.missingLengthEntry a)
            | some n => (lookup_lengths idx t).map (fun ps => (a, n) :: ps)) = _
      rw [ha]
    | some n =>
      obtain ⟨b, hb, hbn⟩ := h
      rcases List.mem_cons.mp hb with rfl | hbt
      · rw [ha] at hbn; exact absurd hbn (by simp)
      · obtain ⟨a', ha', hn', herr⟩ := ih ⟨b, hbt, hbn⟩
        refine ⟨a', by simp [ha'], hn', ?_⟩
        show (match idx a with
              | none => Except.error (ResolveError.missingLengthEntry a)
              | some n => (lookup_lengths idx t).map (fun ps => (a, n) :: ps)) = _
        rw [ha, herr]
        rfl

/-- C1: for a candidate list that is non-empty and fully covered by the
length index, the per-patent selection of select_the_longest_history
returns the candidate with the maximum chain length; when several
candidates share that maximum it returns the one occurring first in the
candidate list's original order (the stable descending sort preserves
original order among equal lengths, so the head of the sorted list is
exactly the first candidate accepted by the find? on the right). -/
theorem claim_C1_resolver_selects_first_max (idx : String → Option Nat)
    (aids : List String) (hne : aids ≠ [])
    (hcov : ∀ a ∈ aids, (idx a).isSome) :
    ∃ b, select_the_longest_history_for idx aids = .ok b ∧
      aids.find? (fun a => aids.all (fun c =>
        decide ((idx c).getD 0 ≤ (idx a).getD 0))) = some b := by
  set v : String → Nat := fun a => (idx a).getD 0 with hv
  have hlk := lookup_lengths_ok idx aids hcov
  obtain ⟨b, hb⟩ : ∃ b, first_max_el v aids = some b := by
    cases aids with
    | nil => exact absurd rfl hne
    | cons a t => exact Option.isSome_iff_exists.mp (first_max_el_cons_isSome v a t)
  refine ⟨b, ?_, ?_⟩
  · unfold select_the_longest_history_for
    rw [hlk]
    show (match (List.insertionSort desc_by_len
            (aids.map (fun a => (a, v a)))).head? with
          | some p => Except.ok p.1
          | none => Except.error ResolveError.emptyCandidates) = _
    rw [head?_insertionSort_desc, first_max_pair_map, hb]
    rfl
  · rw [← first_max_el_eq_find? v aids]
    exact hb

/-- Concrete length index for the C1 witness: A has chain length 2 while
B and C both have chain length 5. -/
def c1_index : String → Option Nat :=
  fun a => if a = "A" then some 2 else if a = "B" then some 5
    else if a = "C" then some 5 else none

/-- Witness for C1 at the spec's own example: candidates [A, B, C] with
lengths A 2, B 5, C 5; the resolver selects B. -/
theorem claim_C1_witness :
    select_the_longest_history_for c1_index ["A", "B", "C"] = .ok "B" := by
  obtain ⟨b, h1, h2⟩ := claim_C1_resolver_selects_first_max c1_index
    ["A", "B", "C"] (by decide) (by decide)
  have hfind : (["A", "B", "C"].find? (fun a => ["A", "B", "C"].all (fun c =>
      decide ((c1_index c).getD 0 ≤ (c1_index a).getD 0)))) = some "B" := by decide
  rw [hfind] at h2
  obtain rfl : "B" = b := Option.some.inj h2
  exact h1

/-- C7: when some candidate id has no entry in the length index, the
per-patent selection fails with a KeyError naming a missing id (the
spec's MissingLengthEntry); it never falls back to a defaulted length
and never returns a representative. -/
theorem claim_C7_missing_entry_is_fatal (idx : String → Option Nat)
    (aids : List String) (h : ∃ a ∈ aids, idx a = none) :
    ∃ a', a' ∈ aids ∧ idx a' = none ∧
      select_the_longest_history_for idx aids =
        .error (.missingLengthEntry a') := by
  obtain ⟨a', hm, hn, herr⟩ := lookup_lengths_missing idx aids h
  refine ⟨a', hm, hn, ?_⟩
  unfold select_the_longest_history_for
  rw [herr]

/-- Concrete length index for the C7 witness: only A has an entry. -/
def c7_index : String → Option Nat := fun a => if a = "A" then some 2 else none

/-- Witness for C7: with C absent from the length index, selection over
[A, C] fails with MissingLengthEntry C. -/
theorem claim_C7_witness :
    select_the_longest_history_for c7_index ["A", "C"] =
      .error (.missingLengthEntry "C") := by
  obtain ⟨a', hm, hn, herr⟩ := claim_C7_missing_entry_is_fatal c7_index
    ["A", "C"] ⟨"C", by decide, by decide⟩
  have ha : a' = "C" := by
    rcases List.mem_cons.mp hm with rfl | h
    · exact absurd hn (by decide)
    · simpa using h
  subst ha
  exact herr

/-! ### numpy array_split (chunking used by every batched query)

Every batched query of src/handler/neo4j_handler.py partitions its input
id list with np.array_split(ids, k) (k = 50 at lines 772, 820, 891, 920,
991 and k = 200 at lines 854, 954). With n = len(ids), np.array_split
returns k contiguous sub-sequences: the first n mod k of length
n div k + 1 and the remaining k - n mod k of length n div k. -/

/-- Chunk lengths produced by np.array_split for an input of length n
split into k parts. -/
def split_sizes (n k : Nat) : List Nat :=
  List.replicate (n % k) (n / k + 1) ++ List.replicate (k - n % k) (n / k)

/-- Cuts successive chunks of the given lengths off the front of a list. -/
def take_chunks : List α → List Nat → List (List α)
  | _, [] => []
  | xs, s :: ss => xs.take s :: take_chunks (xs.drop s) ss

/-- Embeds np.array_split(xs, k) as used by the batched queries of
src/handler/neo4j_handler.py. -/
def array_split (xs : List α) (k : Nat) : List (List α) :=
  take_chunks xs (split_sizes xs.length k)

theorem sum_split_sizes (n k : Nat) (hk : 0 < k) : (split_sizes n k).sum = n := by
  have h1 : n % k + k * (n / k) = n := Nat.mod_add_div n k
  have h2 : n % k ≤ k := le_of_lt (Nat.mod_lt _ hk)
  have h3 : (k - n % k) * (n / k) = k * (n / k) - n % k * (n / k) :=
    Nat.sub_mul k (n % k) (n / k)
  have h4 : n % k * (n / k) ≤ k * (n / k) := Nat.mul_le_mul_right _ h2
  have h5 : n % k * (n / k + 1) = n % k * (n / k) + n % k := Nat.mul_succ _ _
  simp only [split_sizes, List.sum_append, List.sum_replicate, smul_eq_mul]
  omega

theorem length_split_sizes (n k : Nat) (hk : 0 < k) :
    (split_sizes n k).length = k := by
  have h2 : n % k < k := Nat.mod_lt _ hk
  simp only [split_sizes, List.length_append, List.length_replicate]
  omega

theorem length_take_chunks (xs : List α) (ss : List Nat) :
    (take_chunks xs ss).length = ss.length := by
  induction ss generalizing xs with
  | nil => rfl
  | cons s ss ih => simp [take_chunks, ih]

theorem flatten_take_chunks (xs : List α) (ss : List Nat)
    (h : ss.sum = xs.length) : (take_chunks xs ss).flatten = xs := by
  induction ss generalizing xs with
  | nil =>
    simp only [List.sum_nil] at h
    simp [take_chunks, (List.length_eq_zero.mp h.symm)]
  | cons s ss ih =>
    simp only [List.sum_cons] at h
    have hdrop : ss.sum = (xs.drop s).length := by
      simp only [List.length_drop]
      omega
    simp [take_chunks, List.flatten_cons, ih (xs.drop s) hdrop,
      List.take_append_drop]

theorem map_length_take_chunks (xs : List α) (ss : List Nat)
    (h : ss.sum ≤ xs.length) : (take_chunks xs ss).map List.length = ss := by
  induction ss generalizing xs with
  | nil => rfl
  | cons s ss ih =>
    simp only [List.sum_cons] at h
    have hs : s ≤ xs.length := by omega
    have hdrop : ss.sum ≤ (xs.drop s).length := by
      simp only [List.length_drop]
      omega
    simp [take_chunks, ih (xs.drop s) hdrop, List.length_take,
      Nat.min_eq_left hs]

theorem mem_split_sizes (n k s : Nat) (h : s ∈ split_sizes n k) :
    s = n / k ∨ s = n / k + 1 := by
  rcases List.mem_append.mp h with h | h
  · exact Or.inr (List.eq_of_mem_replicate h)
  · exact Or.inl (List.eq_of_mem_replicate h)

/-- C5: np.array_split partitions a list of N ids into K contiguous
batches whose sizes differ pairwise by at most one, and whose
concatenation in batch order is the original list. -/
theorem claim_C5_array_split_partition (xs : List α) (k : Nat) (hk : 0 < k) :
    (array_split xs k).length = k ∧
    (array_split xs k).flatten = xs ∧
    ∀ c1 ∈ array_split xs k, ∀ c2 ∈ array_split xs k,
      c1.length ≤ c2.length + 1 := by
  refine ⟨?_, ?_, ?_⟩
  · rw [array_split, length_take_chunks, length_split_sizes _ _ hk]
  · exact flatten_take_chunks _ _ (sum_split_sizes _ _ hk)
  · intro c1 h1 c2 h2
    have hsum : (split_sizes xs.length k).sum ≤ xs.length :=
      le_of_eq (sum_split_sizes _ _ hk)
    have hlen := map_length_take_chunks xs (split_sizes xs.length k) hsum
    have m1 : c1.length ∈ split_sizes xs.length k := by
      rw [← hlen]
      exact List.mem_map_of_mem _ h1
    have m2 : c2.length ∈ split_sizes xs.length k := by
      rw [← hlen]
      exact List.mem_map_of_mem _ h2
    rcases mem_split_sizes _ _ _ m1 with e1 | e1 <;>
      rcases mem_split_sizes _ _ _ m2 with e2 | e2 <;> omega

/-- Witness for C5: five ids split into two batches of sizes three and
two whose concatenation restores the input. -/
theorem claim_C5_witness :
    (array_split ["a", "b", "c", "d", "e"] 2).length = 2 ∧
    (array_split ["a", "b", "c", "d", "e"] 2).flatten = ["a", "b", "c", "d", "e"] ∧
    ∀ c1 ∈ array_split ["a", "b", "c", "d", "e"] 2,
      ∀ c2 ∈ array_split ["a", "b", "c", "d", "e"] 2,
        c1.length ≤ c2.length + 1 :=
  claim_C5_array_split_partition ["a", "b", "c", "d", "e"] 2 (by decide)

/-! ### Graph model and Cypher query semantics

The graph store is queried, never mutated, by the pipeline. Patent
nodes carry a pid and a grant date; OWN and INVENT edges pair an
assignee or inventor id with a patent id; CITE edges pair a citing pid
with a cited pid. The loader declares pid uniqueness as a constraint,
which appears below as a Nodup hypothesis where a property depends on
it. -/

/-- Patent node: id and grant date. -/
structure PatentNode where
  pid : String
  date : Date
deriving DecidableEq, Repr

/-- Finite patent graph. -/
structure Graph where
  patents : List PatentNode
  ownEdges : List (String × String)
  inventEdges : List (String × String)
  citeEdges : List (String × String)
deriving Repr

/-- Nodes matching (cites:Patent)-[:CITE]->(p:Patent)<-[:X]-(entity)
for the given entity id and edge list, after WITH DISTINCT cites:
filtering the node list keeps each citing node exactly once however
many matched paths reach it. -/
def distinct_citers (g : Graph) (edges : List (String × String))
    (eid : String) : List PatentNode :=
  g.patents.filter fun c =>
    g.citeEdges.any fun e =>
      decide (e.1 = c.pid) &&
        (edges.any fun o => decide (o.1 = eid) && decide (o.2 = e.2))

/-- Row order imposed by ORDER BY cites.date ASC on projected
(pid, date) rows. -/
def by_date_asc : (String × Date) → (String × Date) → Prop :=
  fun x y => Date.le x.2 y.2

instance : DecidableRel by_date_asc :=
  fun x y => (inferInstance : Decidable (Date.le x.2 y.2))

instance : IsTotal (String × Date) by_date_asc :=
  ⟨fun a b => Date.le_total a.2 b.2⟩

instance : IsTrans (String × Date) by_date_asc :=
  ⟨fun a b c => Date.le_trans a.2 b.2 c.2⟩

/-- Embeds the per-assignee Cypher query of
query_citation_chain_of_assignee (src/handler/neo4j_handler.py lines
862-867): the DISTINCT citing patents of any patent owned by the
assignee, projected to (pid, date) rows, ordered ascending by date. -/
def cypher_chain_of_assignee (g : Graph) (aid : String) : List (String × Date) :=
  List.insertionSort by_date_asc
    ((distinct_citers g g.ownEdges aid).map fun c => (c.pid, c.date))

/-- Embeds the per-inventor Cypher query of
query_citation_chain_of_inventor (src/handler/neo4j_handler.py lines
962-967). -/
def cypher_chain_of_inventor (g : Graph) (iid : String) : List (String × Date) :=
  List.insertionSort by_date_asc
    ((distinct_citers g g.inventEdges iid).map fun c => (c.pid, c.date))

theorem chain_rows_nodup_sorted (g : Graph) (edges : List (String × String))
    (eid : String) (hpid : (g.patents.map PatentNode.pid).Nodup) :
    ((List.insertionSort by_date_asc
        ((distinct_citers g edges eid).map fun c => (c.pid, c.date))).map
          Prod.fst).Nodup ∧
    (List.insertionSort by_date_asc
        ((distinct_citers g edges eid).map fun c => (c.pid, c.date))).Pairwise
          by_date_asc := by
  constructor
  · have hperm := List.perm_insertionSort by_date_asc
      ((distinct_citers g edges eid).map fun c => (c.pid, c.date))
    have hmap := hperm.map Prod.fst
    rw [hmap.nodup_iff]
    rw [List.map_map]
    have hsub : List.Sublist
        ((g.patents.filter fun c =>
          g.citeEdges.any fun e =>
            decide (e.1 = c.pid) &&
              (edges.any fun o => decide (o.1 = eid) && decide (o.2 = e.2))).map
                PatentNode.pid)
        (g.patents.map PatentNode.pid) :=
      (List.filter_sublist g.patents).map PatentNode.pid
    exact hpid.sublist hsub
  · exact List.sorted_insertionSort by_date_asc _

/-- C2: every chain returned by the per-entity chain queries (assignee
and inventor alike) has pairwise distinct patent ids and citing dates
that are non-decreasing along the sequence, given the loader's pid
uniqueness constraint on the graph. -/
theorem claim_C2_chain_distinct_and_sorted (g : Graph) (eid : String)
    (hpid : (g.patents.map PatentNode.pid).Nodup) :
    (((cypher_chain_of_assignee g eid).map Prod.fst).Nodup ∧
      (cypher_chain_of_assignee g eid).Pairwise by_date_asc) ∧
    (((cypher_chain_of_inventor g eid).map Prod.fst).Nodup ∧
      (cypher_chain_of_inventor g eid).Pairwise by_date_asc) :=
  ⟨chain_rows_nodup_sorted g g.ownEdges eid hpid,
   chain_rows_nodup_sorted g g.inventEdges eid hpid⟩

/-- Concrete graph shared by several witnesses: three patents, two
assignees and one inventor on p1, and citations p2 -> p1, p3 -> p1. -/
def sample_graph : Graph where
  patents := [⟨"p1", ⟨1990, 5, 1⟩⟩, ⟨"p2", ⟨1991, 6, 15⟩⟩, ⟨"p3", ⟨1992, 1, 2⟩⟩]
  ownEdges := [("a1", "p1"), ("a2", "p1")]
  inventEdges := [("i1", "p1")]
  citeEdges := [("p2", "p1"), ("p3", "p1")]

/-- Witness for C2 on the sample graph and assignee a1. -/
theorem claim_C2_witness :
    (((cypher_chain_of_assignee sample_graph "a1").map Prod.fst).Nodup ∧
      (cypher_chain_of_assignee sample_graph "a1").Pairwise by_date_asc) ∧
    (((cypher_chain_of_inventor sample_graph "a1").map Prod.fst).Nodup ∧
      (cypher_chain_of_inventor sample_graph "a1").Pairwise by_date_asc) :=
  claim_C2_chain_distinct_and_sorted sample_graph "a1" (by decide)

/-- Result rows of MATCH (p:Patent)<-[:X]-(entity) WHERE p.pid = $pid
RETURN entity id, flattened to a plain id list
(np.array(result).flatten().tolist()), in edge-list order. -/
def entity_ids_of (edges : List (String × String)) (pid : String) : List String :=
  (edges.filter fun o => decide (o.2 = pid)).map Prod.fst

/-- Embeds query_pid2aid / query_pid2iid (src/handler/neo4j_handler.py
lines 879-906 and 979-1006): the pid list is chunked with
np.array_split(pids, 50); within a chunk each pid is queried for its
attached entity ids and inserted into the chunk's dict only when the
matched list is non-empty (the if matched_assignees guard of line 902,
resp. line 1002). -/
def query_pid2x (edges : List (String × String)) (pids : List String) :
    List (List (String × List String)) :=
  (array_split pids 50).map fun chunk =>
    chunk.filterMap fun pid =>
      if (entity_ids_of edges pid).isEmpty then none
      else some (pid, entity_ids_of edges pid)

/-- Patent-to-assignees mapping chunks, as yielded by query_pid2aid. -/
def query_pid2aid (g : Graph) (pids : List String) :
    List (List (String × List String)) :=
  query_pid2x g.ownEdges pids

/-- Patent-to-inventors mapping chunks, as yielded by query_pid2iid. -/
def query_pid2iid (g : Graph) (pids : List String) :
    List (List (String × List String)) :=
  query_pid2x g.inventEdges pids

theorem lookup_lengths_error_shape (idx : String → Option Nat)
    (aids : List String) (e : ResolveError)
    (h : lookup_lengths idx aids = .error e) :
    ∃ a, e = .missingLengthEntry a := by
  revert h
  induction aids generalizing e with
  | nil => intro h; exact absurd h (by simp [lookup_lengths])
  | cons a t ih =>
    intro h
    unfold lookup_lengths at h
    cases ha : idx a with
    | none =>
      rw [ha] at h
      exact ⟨a, by injection h with h'; exact h'.symm⟩
    | some n =>
      rw [ha] at h
      cases hl : lookup_lengths idx t with
      | error e' =>
        rw [hl] at h
        simp [Except.map] at h
        exact h ▸ ih e' hl
      | ok ps =>
        rw [hl] at h
        simp [Except.map] at h

theorem lookup_lengths_ok_length (idx : String → Option Nat)
    (aids : List String) (ps : List (String × Nat))
    (h : lookup_lengths idx aids = .ok ps) : ps.length = aids.length := by
  induction aids generalizing ps with
  | nil =>
    simp [lookup_lengths] at h
    simp [← h]
  | cons a t ih =>
    unfold lookup_lengths at h
    cases ha : idx a with
    | none => rw [ha] at h; exact absurd h (by simp)
    | some n =>
      rw [ha] at h
      cases hl : lookup_lengths idx t with
      | error e' => rw [hl] at h; exact absurd h (by simp [Except.map])
      | ok ps' =>
        rw [hl] at h
        simp [Except.map] at h
        simp [← h, ih ps' hl]

theorem select_ne_empty_of_ne_nil (idx : String → Option Nat)
    (aids : List String) (hne : aids ≠ []) :
    select_the_longest_history_for idx aids ≠ .error .emptyCandidates := by
  intro h
  unfold select_the_longest_history_for at h
  cases hl : lookup_lengths idx aids with
  | error e =>
    rw [hl] at h
    obtain ⟨a, ha⟩ := lookup_lengths_error_shape idx aids e hl
    injection h with h'
    rw [ha] at h'
    exact absurd h' (by simp)
  | ok ps =>
    rw [hl] at h
    have h2 : (match (List.insertionSort desc_by_len ps).head? with
        | some p => Except.ok p.1
        | none => Except.error ResolveError.emptyCandidates) =
        (Except.error ResolveError.emptyCandidates :
          Except ResolveError String) := h
    have hlen : ps.length = aids.length := lookup_lengths_ok_length idx aids ps hl
    have hpos : 0 < (List.insertionSort desc_by_len ps).length := by
      rw [List.length_insertionSort]
      cases aids with
      | nil => exact absurd rfl hne
      | cons b t => rw [hlen]; simp
    cases hs : List.insertionSort desc_by_len ps with
    | nil => rw [hs] at hpos; simp at hpos
    | cons p t =>
      rw [hs] at h2
      simp at h2

/-- C10: every (pid, candidate list) pair yielded by query_pid2aid or
query_pid2iid has a non-empty candidate list (patents without matched
entities are omitted from the dict), so the resolver's access to the
first element of the sorted list can never hit an empty list: selection
never fails with the IndexError case, whatever the length index. -/
theorem claim_C10_candidate_lists_nonempty (g : Graph) (pids : List String) :
    ∀ m ∈ query_pid2aid g pids ++ query_pid2iid g pids, ∀ pr ∈ m,
      pr.2 ≠ [] ∧ ∀ idx, select_the_longest_history_for idx pr.2 ≠
        .error .emptyCandidates := by
  intro m hm pr hpr
  have key : ∀ (edges : List (String × String)),
      m ∈ query_pid2x edges pids → pr.2 ≠ [] := by
    intro edges hm'
    obtain ⟨chunk, _, rfl⟩ := List.mem_map.mp hm'
    obtain ⟨pid, _, hsome⟩ := List.mem_filterMap.mp hpr
    by_cases hemp : (entity_ids_of edges pid).isEmpty
    · rw [if_pos hemp] at hsome
      exact absurd hsome (by simp)
    · rw [if_neg hemp] at hsome
      injection hsome with h'
      rw [← h']
      simpa [List.isEmpty_iff] using hemp
  have hne : pr.2 ≠ [] := by
    rcases List.mem_append.mp hm with hm' | hm'
    · exact key g.ownEdges hm'
    · exact key g.inventEdges hm'
  exact ⟨hne, fun idx => select_ne_empty_of_ne_nil idx pr.2 hne⟩

/-- Witness for C10: on the sample graph, p1 carries candidate list
[a1, a2]; it is non-empty and selection on it never returns the
IndexError case. -/
theorem claim_C10_witness :
    ("p1", ["a1", "a2"]).2 ≠ [] ∧
    ∀ idx, select_the_longest_history_for idx ("p1", ["a1", "a2"]).2 ≠
      .error .emptyCandidates :=
  claim_C10_candidate_lists_nonempty sample_graph ["p1", "p2"]
    [("p1", ["a1", "a2"])] (by decide) ("p1", ["a1", "a2"]) (by decide)

/-! ### Candidate selector (src/gen_citation_chain.py, retrieve_target_patents)

retrieve_target_patents derives its artifact path from min_cites and
max_cites; if the file exists the pickled candidate set is loaded and
returned with no graph access. Otherwise it iterates one calendar-year
window per year from 1976 to 2017 and calls
handler.query_patents_by_time_window(tw, min_num=..., max_num=...);
that method (src/handler/neo4j_handler.py line 723) accepts only tw and
min_num, so Python raises TypeError at the first call's keyword
binding, before any query is issued and before anything is persisted.
No upper-bound filtering exists anywhere on this path. -/

/-- Number of DISTINCT patent nodes citing p: the
count(distinct cites) aggregate of the time-window query. -/
def citation_count (g : Graph) (p : PatentNode) : Nat :=
  (g.patents.filter fun c =>
    g.citeEdges.any fun e => decide (e.1 = c.pid) && decide (e.2 = p.pid)).length

/-- Row order of ORDER BY p.date DESC. -/
def by_date_desc : PatentNode → PatentNode → Prop :=
  fun x y => Date.le y.date x.date

instance : DecidableRel by_date_desc :=
  fun x y => (inferInstance : Decidable (Date.le y.date x.date))

/-- Embeds the Cypher query of query_patents_by_time_window
(src/handler/neo4j_handler.py lines 745-749): patents granted within
the window with strictly more than min_num distinct citers, projected
to pids, ordered by grant date descending. The query has no upper
bound. -/
def query_patents_by_time_window (g : Graph) (s e : Date) (min_num : Nat) :
    List String :=
  (List.insertionSort by_date_desc
    (g.patents.filter fun p =>
      decide (Date.le s p.date) && decide (Date.le p.date e) &&
        decide (min_num < citation_count g p))).map PatentNode.pid

theorem query_patents_only_lower_bound (g : Graph) (s e : Date)
    (min_num : Nat) :
    ∀ pid ∈ query_patents_by_time_window g s e min_num,
      ∃ p, p ∈ g.patents ∧ p.pid = pid ∧
        Date.le s p.date ∧ Date.le p.date e ∧ min_num < citation_count g p := by
  intro pid hp
  obtain ⟨p, hmem, rfl⟩ := List.mem_map.mp hp
  rw [List.mem_insertionSort] at hmem
  have hfil := List.mem_filter.mp hmem
  have hb := hfil.2
  simp only [Bool.and_eq_true, decide_eq_true_eq] at hb
  exact ⟨p, hfil.1, rfl, hb.1.1, hb.1.2, hb.2⟩

/-- Python errors surfacing in the modelled code paths. -/
inductive PyErr where
  | typeErrorUnexpectedKwarg : String → PyErr
  | typeErrorModuleNotCallable : PyErr
deriving DecidableEq, Repr

/-- Keyword-capable parameter names of
Neo4jHandler.query_patents_by_time_window (line 723): tw and min_num. -/
def query_patents_params : List String := ["tw", "min_num"]

/-- Keyword argument names used at the call site in
retrieve_target_patents (src/gen_citation_chain.py lines 60-61). -/
def retrieve_call_kwargs : List String := ["min_num", "max_num"]

/-- Python keyword binding: a call succeeds only when every keyword
argument names a formal parameter; otherwise TypeError is raised before
the body runs. -/
def kwargs_accepted (params kwargs : List String) : Bool :=
  kwargs.all fun kw => params.contains kw

/-- Evaluation of handler.query_patents_by_time_window(tw,
min_num=..., max_num=...) as written at the call site: the keyword
max_num is not a formal parameter, so the call raises TypeError; were
the binding to succeed, the body would run the lower-bound-only
query. -/
def call_query_patents_by_time_window (g : Graph) (tw : Date × Date)
    (min_num max_num : Nat) : Except PyErr (List String) :=
  if kwargs_accepted query_patents_params retrieve_call_kwargs then
    .ok (query_patents_by_time_window g tw.1 tw.2 min_num)
  else
    .error (.typeErrorUnexpectedKwarg "max_num")

/-- Artifact path computed by retrieve_target_patents (lines 47-49). -/
def pids_cache_key (min_cites max_cites : Nat) : String :=
  "pids" ++ ".min_cites" ++ toString min_cites ++
    ".max_cites" ++ toString max_cites ++ ".pkl"

/-- Calendar-year windows generated on a cache miss: (year-01-01,
year-12-31) for each year of range(1976, 2018). -/
def year_windows : List (Date × Date) :=
  (List.range' 1976 42).map fun y => (⟨y, 1, 1⟩, ⟨y, 12, 31⟩)

/-- Python set insertion (duplicates are dropped). -/
def set_insert (acc : List String) (x : String) : List String :=
  if acc.contains x then acc else acc ++ [x]

/-- Python set union pids |= set(xs). -/
def set_union (acc : List String) (xs : List String) : List String :=
  xs.foldl set_insert acc

/-- Loop of the cache-miss path: for each window, call the port query
and union the result into the accumulated candidate set, counting the
issued graph queries; a failed call aborts the loop with its error. -/
def windows_union (g : Graph) (min_cites max_cites : Nat) :
    List (Date × Date) → List String → Nat → Except PyErr (List String × Nat)
  | [], acc, n => .ok (acc, n)
  | tw :: rest, acc, n =>
    match call_query_patents_by_time_window g tw min_cites max_cites with
    | .error e => .error e
    | .ok res => windows_union g min_cites max_cites rest (set_union acc res) (n + 1)

/-- Embeds retrieve_target_patents (src/gen_citation_chain.py lines
34-63) over an abstract artifact store from file path to pickled
candidate set. Returns the candidate set, the store after the call and
the number of graph queries issued. -/
def retrieve_target_patents (g : Graph)
    (store : String → Option (List String)) (min_cites max_cites : Nat) :
    Except PyErr (List String × (String → Option (List String)) × Nat) :=
  match store (pids_cache_key min_cites max_cites) with
  | some pids => .ok (pids, store, 0)
  | none =>
    match windows_union g min_cites max_cites year_windows [] 0 with
    | .error e => .error e
    | .ok (pids, n) =>
      .ok (pids,
        fun key => if key = pids_cache_key min_cites max_cites then some pids
          else store key,
        n)

/-- C3: evaluation of candidate-set generation on a cache miss. For
every graph and every parameter pair the run raises TypeError at the
first window's query call (max_num is not a parameter of
query_patents_by_time_window), so no candidate set is generated, no
client-side upper-bound filter ever runs, and the port query itself
enforces only the strict lower bound. -/
theorem claim_C3_miss_path_raises_type_error (g : Graph)
    (min_cites max_cites : Nat) :
    retrieve_target_patents g (fun _ => none) min_cites max_cites =
      .error (.typeErrorUnexpectedKwarg "max_num") := rfl

/-- Store holding one pre-existing candidate-set artifact for the C4
witness. -/
def c4_store : String → Option (List String) :=
  fun key => if key = pids_cache_key 10 50 then some ["p1", "p7"] else none

/-- C4: when the artifact for the exact (min_cites, max_cites) pair
exists, retrieve_target_patents returns the stored set unchanged,
leaves the store unchanged and issues zero graph queries; consequently
a repeated call with identical parameters over the resulting store
returns a result equal to the first call's. -/
theorem claim_C4_cache_hit_no_query (g : Graph)
    (store : String → Option (List String)) (min_cites max_cites : Nat)
    (pids : List String)
    (h : store (pids_cache_key min_cites max_cites) = some pids) :
    retrieve_target_patents g store min_cites max_cites = .ok (pids, store, 0) ∧
    ∀ res st2 n,
      retrieve_target_patents g store min_cites max_cites = .ok (res, st2, n) →
        retrieve_target_patents g st2 min_cites max_cites = .ok (res, st2, 0) := by
  have h1 : retrieve_target_patents g store min_cites max_cites =
      .ok (pids, store, 0) := by
    unfold retrieve_target_patents
    rw [h]
  refine ⟨h1, ?_⟩
  intro res st2 n hcall
  rw [h1] at hcall
  injection hcall with h2
  simp only [Prod.mk.injEq] at h2
  obtain ⟨rfl, rfl, rfl⟩ := h2
  exact h1

/-- Witness for C4: a second call over the unchanged store reproduces
the stored candidate set with zero graph queries. -/
theorem claim_C4_witness :
    retrieve_target_patents sample_graph c4_store 10 50 =
      .ok (["p1", "p7"], c4_store, 0) ∧
    ∀ res st2 n,
      retrieve_target_patents sample_graph c4_store 10 50 = .ok (res, st2, n) →
        retrieve_target_patents sample_graph st2 10 50 = .ok (res, st2, 0) :=
  claim_C4_cache_hit_no_query sample_graph c4_store 10 50 ["p1", "p7"] rfl

/-! ### Chunked chain builder with per-batch checkpoints

query_citation_chain_of_assignee (src/handler/neo4j_handler.py lines
835-877) is a generator: it splits the id list into batches with
np.array_split, opens one transaction per batch, queries every id of
the batch sequentially, commits, and yields (batch index, chains dict);
the consumer retrieve_assignee_citation_chains
(src/gen_citation_chain.py lines 116-140) writes one checkpoint file
per yielded batch, accumulates each chain's length into a dict, and
after the loop writes the single chain-length index file.
retrieve_inventor_citation_chains (lines 170-195) is line-for-line
identical with inventor in place of assignee. Generator and consumer
are modelled fused; the per-id query (tx.run plus row conversion) is a
parameter that either returns the chain's rows or fails. An exception
raised for any id propagates out of the batch loop: the transaction is
never committed, nothing is yielded for the batch, and the consumer's
loop ends before writing that batch's checkpoint or the length index. -/

/-- Overwriting insertion into a Python dict modelled as a function. -/
def dict_insert (m : String → Option Nat) (k : String) (v : Nat) :
    String → Option Nat :=
  fun x => if x = k then some v else m x

/-- Accumulation of a yielded batch into the chain-length dict:
for key, value in chains.items(): length[key] = len(value). -/
def update_lengths (m : String → Option Nat)
    (chains : List (String × List γ)) : String → Option Nat :=
  chains.foldl (fun acc p => dict_insert acc p.1 p.2.length) m

/-- One batch: query every id of the chunk in order inside the batch's
transaction, building the chains dict; the first failure aborts the
whole batch with no partial result. -/
def run_batch (q : String → Except ε (List γ)) :
    List String → Except ε (List (String × List γ))
  | [] => .ok []
  | a :: rest =>
    match q a with
    | .error e => .error e
    | .ok c => (run_batch q rest).map (fun ps => (a, c) :: ps)

/-- Trace of one builder invocation: checkpoint files written (batch
index and contents, in write order), committed batch indices, the
chain-length index (present only when every batch completed), and the
error that stopped the run, if any. -/
structure BuildTrace (ε γ : Type) where
  written : List (Nat × List (String × List γ))
  committed : List Nat
  lenIndex : Option (String → Option Nat)
  err : Option ε

/-- Batch loop from batch index ix onward, with the chain-length dict
accumulated so far. -/
def build_go (q : String → Except ε (List γ)) (acc : String → Option Nat) :
    Nat → List (List String) → BuildTrace ε γ
  | _, [] => ⟨[], [], some acc, none⟩
  | ix, chunk :: rest =>
    match run_batch q chunk with
    | .error e => ⟨[], [], none, some e⟩
    | .ok chains =>
      let r := build_go q (update_lengths acc chains) (ix + 1) rest
      ⟨(ix, chains) :: r.written, ix :: r.committed, r.lenIndex, r.err⟩

/-- Embeds the fused builder/consumer loop over np.array_split(ids, k)
(k is 200 in the source). -/
def build_and_persist (q : String → Except ε (List γ)) (ids : List String)
    (k : Nat) : BuildTrace ε γ :=
  build_go q (fun _ => none) 0 (array_split ids k)

/-- Query used by the C6 analysis: id b fails, every other id yields a
two-row chain. -/
def c6_query : String → Except String (List Unit) :=
  fun a => if a = "b" then .error "query failed" else .ok [(), ()]

/-- Counterexample to C6 as stated: with ids [a, b] split into two
batches and the query failing on b, a run writes the checkpoint of
batch 0 and aborts inside batch 1. Re-running the builder evaluates the
same function on the same arguments (neither the generator nor its
caller has checkpoint-skipping logic), so the re-run's write trace is
again [0]: it re-queries and re-writes the earlier batch 0 instead of
redoing exactly the failed batch 1. -/
theorem claim_C6_counterexample :
    (build_and_persist c6_query ["a", "b"] 2).err.isSome = true ∧
    (build_and_persist c6_query ["a", "b"] 2).written.map Prod.fst = [0] ∧
    (build_and_persist c6_query ["a", "b"] 2).written.map Prod.fst ≠ [1] ∧
    (build_and_persist c6_query ["a", "b"] 2).committed = [0] :=
  ⟨rfl, rfl, by decide, rfl⟩

/-- Failure behaviour of the batch loop from an arbitrary start index:
with every batch before the failing one succeeding, the loop writes and
commits exactly the earlier batches, keeps no length index and stops
with the error. -/
theorem build_go_failure (q : String → Except ε (List γ))
    (cj : List String) (post : List (List String)) (e : ε)
    (hfail : run_batch q cj = .error e) :
    ∀ pre : List (List String), (∀ c ∈ pre, ∃ r, run_batch q c = .ok r) →
      ∀ (acc : String → Option Nat) (ix : Nat),
        (build_go q acc ix (pre ++ cj :: post)).written.map Prod.fst =
          List.range' ix pre.length ∧
        (build_go q acc ix (pre ++ cj :: post)).committed =
          List.range' ix pre.length ∧
        (build_go q acc ix (pre ++ cj :: post)).lenIndex = none ∧
        (build_go q acc ix (pre ++ cj :: post)).err = some e := by
  intro pre
  induction pre with
  | nil =>
    intro _ acc ix
    simp [build_go, hfail]
  | cons c pre ih =>
    intro hpre acc ix
    obtain ⟨r, hr⟩ := hpre c (by simp)
    have ih' := ih (fun c' hc' => hpre c' (by simp [hc']))
      (update_lengths acc r) (ix + 1)
    simp only [List.cons_append, build_go, hr, List.length_cons,
      List.append_eq]
    refine ⟨?_, ?_, ?_, ?_⟩
    · rw [List.map_cons, ih'.1]
      rfl
    · rw [ih'.2.1]
      rfl
    · exact ih'.2.2.1
    · exact ih'.2.2.2

/-- C6 (amended): a query failure for any single id aborts the entire
in-flight batch: the batch's transaction is not committed, its (index,
chains) pair is never emitted, no checkpoint for it (nor for any later
batch) is written, the chain-length index is not written, and the run
stops with the error, leaving exactly the checkpoints of the earlier,
complete batches in order. Re-running the builder, however, starts
again from batch 0 -- the caller has no checkpoint-skipping logic -- so
the failed batch is redone only as part of a full re-run that also
redoes (and rewrites) every earlier batch. -/
theorem claim_C6_batch_failure_aborts (q : String → Except ε (List γ))
    (ids : List String) (k : Nat) (pre : List (List String))
    (cj : List String) (post : List (List String)) (e : ε)
    (hsplit : array_split ids k = pre ++ cj :: post)
    (hpre : ∀ c ∈ pre, ∃ r, run_batch q c = .ok r)
    (hfail : run_batch q cj = .error e) :
    (build_and_persist q ids k).written.map Prod.fst =
      List.range' 0 pre.length ∧
    (build_and_persist q ids k).committed = List.range' 0 pre.length ∧
    (build_and_persist q ids k).lenIndex = none ∧
    (build_and_persist q ids k).err = some e := by
  unfold build_and_persist
  rw [hsplit]
  exact build_go_failure q cj post e hfail pre hpre (fun _ => none) 0

/-- Witness for C6 (amended): ids [a, b] in two batches with b failing;
the run checkpoints and commits exactly batch 0, writes no length
index, and surfaces the error. -/
theorem claim_C6_witness :
    (build_and_persist c6_query ["a", "b"] 2).written.map Prod.fst =
      List.range' 0 1 ∧
    (build_and_persist c6_query ["a", "b"] 2).committed = List.range' 0 1 ∧
    (build_and_persist c6_query ["a", "b"] 2).lenIndex = none ∧
    (build_and_persist c6_query ["a", "b"] 2).err = some "query failed" :=
  claim_C6_batch_failure_aborts c6_query ["a", "b"] 2 [["a"]] ["b"] []
    "query failed" rfl
    (fun c hc => ⟨[("a", [(), ()])], by
      have hc' : c = ["a"] := by simpa using hc
      rw [hc']
      rfl⟩)
    rfl

/-- Chain value the abstract per-id query returns for an id; the error
case is arbitrary and only ever used under a success hypothesis. -/
def the_chain (q : String → Except ε (List γ)) (a : String) : List γ :=
  match q a with
  | .ok c => c
  | .error _ => []

theorem run_batch_ok (q : String → Except ε (List γ)) (chunk : List String)
    (h : ∀ a ∈ chunk, ∃ c, q a = .ok c) :
    run_batch q chunk = .ok (chunk.map fun a => (a, the_chain q a)) := by
  induction chunk with
  | nil => rfl
  | cons a rest ih =>
    obtain ⟨c, hc⟩ := h a (by simp)
    have hrest := ih (fun b hb => h b (by simp [hb]))
    simp only [run_batch, hc, hrest, Except.map, List.map_cons]
    have hchain : the_chain q a = c := by simp [the_chain, hc]
    rw [hchain]

theorem update_lengths_lookup (q : String → Except ε (List γ))
    (pairs : List (String × List γ))
    (hcons : ∀ p ∈ pairs, p.2 = the_chain q p.1) :
    ∀ (acc : String → Option Nat) (x : String),
      update_lengths acc pairs x =
        if x ∈ pairs.map Prod.fst then some (the_chain q x).length
        else acc x := by
  induction pairs with
  | nil => intro acc x; simp [update_lengths]
  | cons p ps ih =>
    intro acc x
    have hps : ∀ p' ∈ ps, p'.2 = the_chain q p'.1 :=
      fun p' hp' => hcons p' (by simp [hp'])
    show update_lengths (dict_insert acc p.1 p.2.length) ps x = _
    rw [ih hps]
    by_cases hx : x ∈ ps.map Prod.fst
    · simp [hx]
    · by_cases hxp : x = p.1
      · have hp2 : p.2 = the_chain q p.1 := hcons p (by simp)
        simp [hx, hxp, dict_insert, hp2]
      · simp [hx, hxp, dict_insert]

theorem build_go_success (q : String → Except ε (List γ)) :
    ∀ chunks : List (List String),
      (∀ c ∈ chunks, ∀ a ∈ c, ∃ r, q a = .ok r) →
      ∀ (acc : String → Option Nat) (ix : Nat),
        ∃ f, (build_go q acc ix chunks).lenIndex = some f ∧
          ∀ x, f x = if x ∈ chunks.flatten then some (the_chain q x).length
            else acc x := by
  intro chunks
  induction chunks with
  | nil =>
    intro _ acc ix
    exact ⟨acc, rfl, by simp⟩
  | cons c cs ih =>
    intro hall acc ix
    have hc : run_batch q c = .ok (c.map fun a => (a, the_chain q a)) :=
      run_batch_ok q c (fun a ha => hall c (by simp) a ha)
    have hcs : ∀ c' ∈ cs, ∀ a ∈ c', ∃ r, q a = .ok r :=
      fun c' hc' a ha => hall c' (by simp [hc']) a ha
    obtain ⟨f, hf, hprop⟩ := ih hcs
      (update_lengths acc (c.map fun a => (a, the_chain q a))) (ix + 1)
    refine ⟨f, ?_, ?_⟩
    · simp only [build_go, hc]
      exact hf
    · intro x
      rw [hprop x]
      have hpairs : ∀ p ∈ (c.map fun a => (a, the_chain q a)),
          p.2 = the_chain q p.1 := by
        intro p hp
        obtain ⟨a, _, rfl⟩ := List.mem_map.mp hp
        rfl
      have hacc := update_lengths_lookup q _ hpairs acc x
      have hfst : (c.map fun a => (a, the_chain q a)).map Prod.fst = c := by
        simp [List.map_map, Function.comp_def]
      rw [hfst] at hacc
      by_cases hx2 : x ∈ cs.flatten
      · simp [hx2, List.flatten_cons]
      · by_cases hx1 : x ∈ c
        · simp [hx1, hx2, List.flatten_cons, hacc]
        · simp [hx1, hx2, List.flatten_cons, hacc]

/-- C8: when every id's query succeeds, the builder completes and the
emitted chain-length index has an entry for exactly the ids processed
in the call: each processed id maps to the length of its constructed
chain (0 for an empty chain), and no other id has an entry. -/
theorem claim_C8_length_index_exact (q : String → Except ε (List γ))
    (ids : List String) (k : Nat) (hk : 0 < k)
    (hok : ∀ a ∈ ids, ∃ c, q a = .ok c) :
    ∃ f, (build_and_persist q ids k).lenIndex = some f ∧
      (∀ a ∈ ids, ∃ c, q a = .ok c ∧ f a = some c.length) ∧
      ∀ a, a ∉ ids → f a = none := by
  have hflat : (array_split ids k).flatten = ids := by
    unfold array_split
    exact flatten_take_chunks _ _ (sum_split_sizes _ _ hk)
  have hall : ∀ c ∈ array_split ids k, ∀ a ∈ c, ∃ r, q a = .ok r := by
    intro c hc a ha
    apply hok
    rw [← hflat]
    exact List.mem_flatten.mpr ⟨c, hc, ha⟩
  obtain ⟨f, hf, hprop⟩ := build_go_success q (array_split ids k) hall
    (fun _ => none) 0
  refine ⟨f, hf, ?_, ?_⟩
  · intro a ha
    obtain ⟨c, hc⟩ := hok a ha
    refine ⟨c, hc, ?_⟩
    have hmem : a ∈ (array_split ids k).flatten := by rw [hflat]; exact ha
    rw [hprop a, if_pos hmem]
    simp [the_chain, hc]
  · intro a ha
    have hmem : a ∉ (array_split ids k).flatten := by rw [hflat]; exact ha
    rw [hprop a, if_neg hmem]

/-- Query for the C8 witness: x has a two-row chain, every other id an
empty one. -/
def c8_query : String → Except String (List Nat) :=
  fun a => if a = "x" then .ok [7, 9] else .ok []

/-- Witness for C8 on ids [x, y, z] in two batches: the emitted length
index stores 2 for x, 0 for y and z, and nothing else. -/
theorem claim_C8_witness :
    ∃ f, (build_and_persist c8_query ["x", "y", "z"] 2).lenIndex = some f ∧
      (∀ a ∈ ["x", "y", "z"], ∃ c, c8_query a = .ok c ∧ f a = some c.length) ∧
      ∀ a, a ∉ ["x", "y", "z"] → f a = none :=
  claim_C8_length_index_exact c8_query ["x", "y", "z"] 2 (by decide)
    (fun a _ =>
      if h : a = "x" then ⟨[7, 9], by simp [c8_query, h]⟩
      else ⟨[], by simp [c8_query, h]⟩)

/-! ### Date persistence and to_epoch (src/handler/neo4j_handler.py)

The handler module imports the datetime package with a plain import
statement (line 3: import datetime), so inside the module the bare name
datetime denotes the module object; the class is reachable only as
datetime.datetime (the spelling used at line 106). to_epoch (lines
12-13) evaluates the call datetime(1970, 1, 1), and the chain loops
evaluate datetime(date.year, date.month, date.day) (lines 872 and 972):
in both the callee is the module object, which is not callable, so
Python raises TypeError before any arithmetic or persistence happens.
The binding is modelled explicitly so those call sites can be
evaluated. -/

/-- Possible bindings of the bare name datetime used as a callee: the
datetime module object (not callable) or the datetime.datetime class. -/
inductive DatetimeBinding where
  | moduleObject : DatetimeBinding
  | datetimeClass : DatetimeBinding
deriving DecidableEq, Repr

/-- Binding of the bare name datetime in src/handler/neo4j_handler.py:
line 3 reads import datetime, so the bare name denotes the module. -/
def handler_datetime_binding : DatetimeBinding := .moduleObject

/-- Evaluation of the call expression datetime(y, m, d): calling the
module object raises TypeError; calling the class would build the
midnight datetime of the given calendar day. -/
def call_datetime (b : DatetimeBinding) (y m d : Nat) : Except PyErr Date :=
  match b with
  | .moduleObject => .error .typeErrorModuleNotCallable
  | .datetimeClass => .ok ⟨y, m, d⟩

/-- Day number of a calendar date in the proleptic Gregorian calendar
(the civil day-count algorithm, 1970-01-01 giving 0), used for the
datetime subtraction had the epoch constructor call succeeded. -/
def days_from_civil (dt : Date) : Int :=
  let y : Int := if dt.month ≤ 2 then (dt.year : Int) - 1 else (dt.year : Int)
  let era : Int := (if 0 ≤ y then y else y - 399) / 400
  let yoe : Int := y - era * 400
  let mp : Int := if 2 < dt.month then (dt.month : Int) - 3 else (dt.month : Int) + 9
  let doy : Int := (153 * mp + 2) / 5 + (dt.day : Int) - 1
  let doe : Int := yoe * 365 + yoe / 4 - yoe / 100 + doy
  era * 146097 + doe - 719468

/-- Embeds to_epoch (src/handler/neo4j_handler.py lines 12-13):
(date - datetime(1970, 1, 1)) / datetime.timedelta(days=1). Python
first evaluates the callee of the epoch constructor; under the module's
actual binding that raises TypeError, so the conversion never returns.
Under the class binding the result would be the signed number of days
between the two midnight datetimes, an exact whole-day rational. -/
def to_epoch (dt : Date) : Except PyErr Rat :=
  match call_datetime handler_datetime_binding 1970 1 1 with
  | .error e => .error e
  | .ok epoch => .ok ((days_from_civil dt - days_from_civil epoch : Int) : Rat)

/-- Embeds the per-row conversion of the assignee and inventor chain
loops (src/handler/neo4j_handler.py lines 869-874 and 969-974): each
query result row (pid, date) is normalized with
date = datetime(date.year, date.month, date.day) and appended as
(pid, to_epoch(date)). -/
def chain_rows_to_py (rows : List (String × Date)) :
    Except PyErr (List (String × Rat)) :=
  match rows with
  | [] => .ok []
  | (pid, d) :: rest =>
    match call_datetime handler_datetime_binding d.year d.month d.day with
    | .error e => .error e
    | .ok dd =>
      match to_epoch dd with
      | .error e => .error e
      | .ok ep => (chain_rows_to_py rest).map (fun ps => (pid, ep) :: ps)

/-- C9: evaluation of the persisted-date conversion under the source's
actual name binding. to_epoch raises TypeError for every input (the
bare name datetime is the module object, import datetime at line 3, and
the module is not callable), and the chain loops' midnight
normalization raises the same TypeError on every non-empty row list, so
no chain entry is ever persisted with an epoch-day value. -/
theorem claim_C9_to_epoch_raises (dt : Date) (pid : String)
    (rows : List (String × Date)) :
    to_epoch dt = .error .typeErrorModuleNotCallable ∧
    chain_rows_to_py ((pid, dt) :: rows) =
      .error .typeErrorModuleNotCallable :=
  ⟨rfl, rfl⟩
